import Mathlib

/-!
Verification development for the Freshwater Vault document engine
(source file src/js/docs.js).

The engine's core functions are shallowly embedded over `List Char`
(one Lean `Char` per JavaScript UTF-16 code point of the strings that
occur here; the documents are plain text).  JavaScript's
`toLowerCase`/`toUpperCase` are modelled on the ASCII range, which is
the range the engine's regular expressions and synonym table operate
on.  Each definition mirrors one function of the source file.
-/

namespace Freshwater

/-- Conversion of a Lean string literal to the character-list representation
used throughout the development. -/
def str (s : String) : List Char := s.data

/-- Characters matched by the JavaScript regex class backslash-s and stripped
by String.prototype.trim (ECMA-262 WhiteSpace plus LineTerminator). -/
def jsWs (c : Char) : Bool :=
  c.toNat = 32 || c.toNat = 9 || c.toNat = 10 || c.toNat = 11 || c.toNat = 12 ||
  c.toNat = 13 || c.toNat = 160 || c.toNat = 0x1680 ||
  (0x2000 ≤ c.toNat && c.toNat ≤ 0x200a) || c.toNat = 0x2028 || c.toNat = 0x2029 ||
  c.toNat = 0x202f || c.toNat = 0x205f || c.toNat = 0x3000 || c.toNat = 0xfeff

/-- ASCII lowercasing, the fragment of String.prototype.toLowerCase used here. -/
def lowerChar (c : Char) : Char :=
  if 65 ≤ c.toNat ∧ c.toNat ≤ 90 then Char.ofNat (c.toNat + 32) else c

/-- ASCII uppercasing, the fragment of String.prototype.toUpperCase used here. -/
def upperChar (c : Char) : Char :=
  if 97 ≤ c.toNat ∧ c.toNat ≤ 122 then Char.ofNat (c.toNat - 32) else c

/-- Membership in the regex class [a-z0-9]. -/
def isLowerAlnum (c : Char) : Bool :=
  (97 ≤ c.toNat && c.toNat ≤ 122) || (48 ≤ c.toNat && c.toNat ≤ 57)

/-- Membership in the regex class [A-Z0-9]. -/
def isUpperAlnum (c : Char) : Bool :=
  (65 ≤ c.toNat && c.toNat ≤ 90) || (48 ≤ c.toNat && c.toNat ≤ 57)

/-- Membership in the regex class [0-9]. -/
def isDigitChar (c : Char) : Bool :=
  48 ≤ c.toNat && c.toNat ≤ 57

/-- Membership in the regex word class (the class backslash-w, used by the
word-boundary assertion backslash-b): [A-Za-z0-9_]. -/
def isWordChar (c : Char) : Bool :=
  (97 ≤ c.toNat && c.toNat ≤ 122) || (65 ≤ c.toNat && c.toNat ≤ 90) ||
  (48 ≤ c.toNat && c.toNat ≤ 57) || c.toNat = 95

/-- String.prototype.trim: drop whitespace from both ends. -/
def jsTrim (l : List Char) : List Char :=
  List.rdropWhile jsWs (List.dropWhile jsWs l)

/-- One character of the replacement regex of normalize: a character kept by
the class [a-z0-9 backslash-s] stays, anything else becomes a space. -/
def spaceChar (c : Char) : Char :=
  if isLowerAlnum c || jsWs c then c else ' '

/-- One pass of the regex replace of backslash-s+ by one space: the Boolean
state records whether the scan stands inside a whitespace run whose single
replacement space has already been emitted. -/
def collapseWsGo : Bool → List Char → List Char
  | _, [] => []
  | inRun, c :: rest =>
    if jsWs c then
      if inRun then collapseWsGo true rest
      else ' ' :: collapseWsGo true rest
    else c :: collapseWsGo false rest

/-- The replacement of every maximal whitespace run by a single space
(the regex replace of backslash-s+ with one space). -/
def collapseWs (l : List Char) : List Char :=
  collapseWsGo false l

/-- The normalize function of docs.js: lowercase, replace every character
outside [a-z0-9 backslash-s] by a space, collapse whitespace runs, trim. -/
def normalize (q : List Char) : List Char :=
  jsTrim (collapseWs ((q.map lowerChar).map spaceChar))

/-- String.prototype.split on the regex matching an optional carriage return
followed by a newline. -/
def splitLines : List Char → List (List Char)
  | [] => [[]]
  | '\r' :: '\n' :: rest => [] :: splitLines rest
  | '\n' :: rest => [] :: splitLines rest
  | c :: rest =>
    match splitLines rest with
    | [] => [[c]]
    | l :: ls => (c :: l) :: ls

/-- String.prototype.split on a single space character. -/
def splitSp : List Char → List (List Char)
  | [] => [[]]
  | c :: rest =>
    if c = ' ' then [] :: splitSp rest
    else
      match splitSp rest with
      | [] => [[c]]
      | w :: ws => (c :: w) :: ws

/-- Case-insensitive test that s starts with the word w followed by a word
boundary (the regex anchored-prefix alternative of isHeading). -/
def wordPrefixCI (w s : List Char) : Bool :=
  ((s.take w.length).map upperChar == w) &&
  (match s.drop w.length with
   | [] => true
   | c :: _ => !isWordChar c)

/-- The first heading heuristic: the line starts with ARTICLE or SECTION,
case-insensitively, as a whole word. -/
def articleSection (s : List Char) : Bool :=
  wordPrefixCI (str "ARTICLE") s || wordPrefixCI (str "SECTION") s

/-- Deterministic scan of the anchored numeric-outline regex of digits, zero
or more dot-digits groups, then one whitespace (its character classes are
pairwise disjoint, so the backtracking regex accepts exactly what this
one-pass scan accepts).  The Boolean state records whether the current digit
group already holds at least one digit. -/
def numScan : Bool → List Char → Bool
  | _, [] => false
  | seenDigit, c :: rest =>
    if isDigitChar c then numScan true rest
    else if seenDigit then
      if c = '.' then numScan false rest else jsWs c
    else false

/-- The second heading heuristic: the anchored numeric-outline regex of
digits, dot-digits groups, then whitespace. -/
def numericOutline (s : List Char) : Bool :=
  numScan false s

/-- Membership in the regex class [A-Z0-9 backslash-s hyphen colon ampersand]
of the all-caps heading heuristic. -/
def capsBody (c : Char) : Bool :=
  isUpperAlnum c || jsWs c || c == '-' || c == ':' || c == '&'

/-- The third heading heuristic: the anchored all-caps regex of one [A-Z0-9]
character and 8 to 70 class characters, conjoined with the check that the
line equals its own uppercasing. -/
def capsRule (s : List Char) : Bool :=
  match s with
  | [] => false
  | c :: rest =>
    isUpperAlnum c && (decide (8 ≤ rest.length) && decide (rest.length ≤ 70)) &&
    rest.all capsBody && (c :: rest).all (fun d => upperChar d == d)

/-- The isHeading classifier of parseAgreement: trim, then try the three
heuristics in order. -/
def isHeading (t : List Char) : Bool :=
  let s := jsTrim t
  if s = [] then false
  else if articleSection s then true
  else if numericOutline s then true
  else capsRule s

/-- A section of the parsed agreement: the chunk records of docs.js. -/
structure Chunk where
  heading : List Char
  text : List Char
deriving DecidableEq

/-- The line loop of parseAgreement: accumulate body lines into the current
chunk, push the chunk when a heading starts a new one, and drop chunks whose
accumulated body trims to nothing. -/
def goParse : Chunk → List (List Char) → List Chunk
  | cur, [] => if jsTrim cur.text = [] then [] else [cur]
  | cur, line :: rest =>
    let t := jsTrim line
    if isHeading t then
      (if jsTrim cur.text = [] then [] else [cur]) ++ goParse ⟨t, []⟩ rest
    else
      goParse ⟨cur.heading, cur.text ++ line ++ ['\n']⟩ rest

/-- The chunk list accumulated by parseAgreement before its fallback check. -/
def parseChunks (text : List Char) : List Chunk :=
  goParse ⟨str "INTRODUCTION", []⟩ (splitLines text)

/-- The parseAgreement function of docs.js. -/
def parseAgreement (text : List Char) : List Chunk :=
  if parseChunks text = [] then [⟨str "AGREEMENT", text⟩] else parseChunks text

/-- The SYNONYMS dictionary of docs.js, in its source key order. -/
def SYNONYMS : List (List Char × List (List Char)) :=
  [ (str "cancel",
     [str "cancellation", str "terminate", str "termination", str "quit",
      str "end", str "refund", str "deposit"]),
    (str "payment",
     [str "payments", str "invoice", str "billing", str "net", str "fee",
      str "charge", str "cost", str "price"]),
    (str "late",
     [str "late", str "overdue", str "past", str "due", str "interest",
      str "finance", str "charge", str "apr", str "penalty"]),
    (str "liability",
     [str "liability", str "damage", str "damages", str "responsible",
      str "responsibility", str "injury", str "slip", str "fall",
      str "warranty", str "warranties", str "indemnif"]),
    (str "dispute",
     [str "dispute", str "arbitration", str "court", str "lawsuit", str "sue",
      str "venue", str "jury", str "mediation"]),
    (str "snow",
     [str "snow", str "ice", str "plow", str "plowing", str "trigger",
      str "accumulation", str "storm", str "berm", str "salt", str "deice"]),
    (str "scope",
     [str "scope", str "work", str "change", str "order", str "extras",
      str "additional", str "addendum"]),
    (str "mowing",
     [str "mowing", str "mow", str "lawn", str "grass", str "turf", str "cut",
      str "trim", str "edge"]),
    (str "season",
     [str "season", str "term", str "duration", str "length", str "period",
      str "year", str "annual"]) ]

/-- Insertion into the JavaScript Set: append the element unless present,
preserving insertion order. -/
def addTok (acc : List (List Char)) (x : List Char) : List (List Char) :=
  if x ∈ acc then acc else acc ++ [x]

/-- The expandTokens function of docs.js: normalize, split on spaces, drop
empty tokens, seed a set, expand through SYNONYMS, keep tokens of length at
least 3, and cap the list at 30. -/
def expandTokens (question : List Char) : List (List Char) :=
  let q := normalize question
  let raw := (splitSp q).filter (fun w => !w.isEmpty)
  let seeded := raw.foldl addTok []
  let expanded := SYNONYMS.foldl (fun acc kv =>
    raw.foldl (fun acc2 w =>
      if w = kv.1 ∨ w ∈ kv.2 then kv.2.foldl addTok (addTok acc2 kv.1)
      else acc2) acc) seeded
  (expanded.filter (fun t => decide (3 ≤ t.length))).take 30

/-- A chunk with its query score: the scored records of bestMatches. -/
structure ScoredChunk where
  heading : List Char
  text : List Char
  score : Nat
deriving DecidableEq

/-- The haystack scored by bestMatches: heading, a newline, and the body,
lowercased. -/
def hayOf (c : Chunk) : List Char :=
  (c.heading ++ '\n' :: c.text).map lowerChar

/-- Whether position i of hay holds a word character (positions outside the
list count as non-word, matching the regex end-of-input behavior). -/
def wordAt (hay : List Char) (i : Nat) : Bool :=
  isWordChar (hay.getD i ' ')

/-- The regex word-boundary assertion at position p of hay. -/
def boundaryAt (hay : List Char) (p : Nat) : Bool :=
  (if p = 0 then false else wordAt hay (p - 1)) != wordAt hay p

/-- Whether the whole-word regex of bestMatches (word boundary, the escaped
token, word boundary) matches at position p of hay. -/
def matchAt (t hay : List Char) (p : Nat) : Bool :=
  ((hay.drop p).take t.length == t) && boundaryAt hay p && boundaryAt hay (p + t.length)

/-- The global regex scan counting matches from position i on: the leftmost
match is taken and scanning resumes after it, a zero-width match advancing by
one as the JavaScript engine does.  The fuel argument only bounds the number
of steps; scanCount supplies enough fuel to reach the end of hay. -/
def scanGo (t hay : List Char) : Nat → Nat → Nat
  | 0, _ => 0
  | fuel + 1, i =>
    if hay.length < i then 0
    else if matchAt t hay i then 1 + scanGo t hay fuel (i + max t.length 1)
    else scanGo t hay fuel (i + 1)

/-- The number of matches of the whole-word regex of a token over hay,
as counted by the global match call of bestMatches. -/
def scanCount (t hay : List Char) : Nat := scanGo t hay (hay.length + 1) 0

/-- The score of one chunk: the summed match counts of every token. -/
def sectionScore (tokens : List (List Char)) (c : Chunk) : Nat :=
  (tokens.map (fun t => scanCount t (hayOf c))).sum

/-- The scored chunk list of bestMatches before filtering and sorting, in
document order. -/
def scoredOf (agreementText question : List Char) : List ScoredChunk :=
  (parseAgreement agreementText).map
    (fun c => ⟨c.heading, c.text, sectionScore (expandTokens question) c⟩)

/-- The sort comparator of bestMatches: the comparator returning the score
difference orders by descending score, ties keeping original order under the
stable Array.prototype.sort. -/
def scoreLe (a b : ScoredChunk) : Bool :=
  decide (b.score ≤ a.score)

/-- The bestMatches function of docs.js.  The top parameter is explicit here;
its JavaScript default is 3. -/
def bestMatches (agreementText question : List Char) (top : Nat) : List ScoredChunk :=
  ((((scoredOf agreementText question).filter
      (fun x => decide (0 < x.score))).mergeSort scoreLe).take top)


/-! Specification-side definitions and concrete scenario data used by the
theorems below. -/

/-- The document of the ranking scenarios of the specification. -/
def scenarioDoc : List Char :=
  str "SECTION 1: PAYMENT TERMS\nPayment is due within 30 days.\n\nSECTION 2: CANCELLATION POLICY\nClient may cancel with 30 days notice. Deposits are non-refundable."


/-- Replacement of every maximal run of characters outside [a-z0-9] by one
space; the Boolean state records whether the scan stands inside such a run. -/
def replaceRunsGo : Bool → List Char → List Char
  | _, [] => []
  | inRun, c :: rest =>
    if isLowerAlnum c then c :: replaceRunsGo false rest
    else if inRun then replaceRunsGo true rest
    else ' ' :: replaceRunsGo true rest

/-- The description of normalize stated by the claim: after lowercasing,
every maximal run of characters outside [a-z0-9] is replaced by a single
space.  Stated from the claim text, for comparison with the source
normalize. -/
def specReplaceRuns (s : List Char) : List Char :=
  replaceRunsGo false (s.map lowerChar)


/-- The all-caps heading characterization stated by the claim: the line is
entirely uppercase, its length is between 9 and 70 inclusive, and it holds
only uppercase letters, digits, spaces, hyphens, colons and ampersands.
Stated from the specification text, for comparison with the source
classifier. -/
def specCapsHeading (s : List Char) : Bool :=
  s.all (fun c => upperChar c == c) &&
  (decide (9 ≤ s.length) && decide (s.length ≤ 70)) &&
  s.all (fun c => isUpperAlnum c || c == ' ' || c == '-' || c == ':' || c == '&')

/-- The corrected all-caps heading characterization: the first character is
an uppercase letter or digit, the length is between 9 and 71 inclusive,
every character is an uppercase letter, digit, whitespace character, hyphen,
colon or ampersand, and the line equals its own uppercasing. -/
def amendedCapsHeading (s : List Char) : Bool :=
  (match s.head? with
   | none => false
   | some c => isUpperAlnum c) &&
  (decide (9 ≤ s.length) && decide (s.length ≤ 71)) &&
  s.all capsBody &&
  s.all (fun c => upperChar c == c)


/-- A non-heading line of the split document. -/
def bodyLine (l : List Char) : Bool := !(isHeading (jsTrim l))

/-- A non-heading line holding at least one non-whitespace character. -/
def contentLine (l : List Char) : Bool :=
  bodyLine l && l.any (fun c => !(jsWs c))

/-- Concatenation of lines, each with the newline the parser appends to the
accumulated body. -/
def joinLines (ls : List (List Char)) : List Char :=
  (ls.map (fun l => l ++ ['\n'])).flatten

/-- Concatenation of the bodies of the parsed chunks, in order. -/
def bodiesConcat (text : List Char) : List Char :=
  ((parseAgreement text).map Chunk.text).flatten

/-- The claim's count of whole-word occurrences of a token: the number of
positions of hay at which the word-boundary-delimited token matches. -/
def specWordOccs (t hay : List Char) : Nat :=
  ((List.range (hay.length + 1)).filter (fun p => matchAt t hay p)).length

/-! The theorems.  Each claim of the specification is settled by one theorem
in this section. -/

/-- C1: parseAgreement returns at least one chunk for every input, and whenever
the line loop accumulated no chunk with non-whitespace body it returns exactly
one fallback chunk with heading AGREEMENT and the original input as body. -/
theorem parseAgreement_total_and_fallback (text : List Char) :
    parseAgreement text ≠ [] ∧
      (parseChunks text = [] → parseAgreement text = [⟨str "AGREEMENT", text⟩]) := by
  constructor
  · unfold parseAgreement
    by_cases h : parseChunks text = [] <;> simp [h]
  · intro h
    unfold parseAgreement
    simp [h]

/-- Witness for C1 at the empty document. -/
theorem parseAgreement_total_and_fallback_witness :
    parseAgreement (str "") ≠ [] ∧ parseAgreement (str "") = [⟨str "AGREEMENT", str ""⟩] :=
  ⟨(parseAgreement_total_and_fallback (str "")).1,
   (parseAgreement_total_and_fallback (str "")).2 (by decide)⟩

/-- C2: on the scenario document, the query about cancelling returns a
non-empty result headed by the cancellation section with score at least 1. -/
theorem bestMatches_scenario_cancellation :
    ∃ x xs, bestMatches scenarioDoc (str "cancel my service") 3 = x :: xs ∧
      x.heading = str "SECTION 2: CANCELLATION POLICY" ∧ 1 ≤ x.score := by
  refine ⟨⟨str "SECTION 2: CANCELLATION POLICY",
    str "Client may cancel with 30 days notice. Deposits are non-refundable.\n", 2⟩,
    [], ?_, by decide, by decide⟩
  have h : (scoredOf scenarioDoc (str "cancel my service")).filter
      (fun x => decide (0 < x.score)) =
      [⟨str "SECTION 2: CANCELLATION POLICY",
        str "Client may cancel with 30 days notice. Deposits are non-refundable.\n", 2⟩] := by
    decide
  unfold bestMatches
  rw [h, List.mergeSort_singleton]
  rfl

/-- C5: when every scored chunk has score zero, bestMatches returns the empty
list. -/
theorem bestMatches_no_match_empty (text q : List Char) (top : Nat)
    (h : ∀ x ∈ scoredOf text q, x.score = 0) :
    bestMatches text q top = [] := by
  have hf : (scoredOf text q).filter (fun x => decide (0 < x.score)) = [] := by
    refine List.filter_eq_nil_iff.mpr ?_
    intro x hx
    simp [h x hx]
  unfold bestMatches
  rw [hf]
  simp

/-- Witness for C5: the nonsense query of the specification scenario. -/
theorem bestMatches_no_match_empty_witness :
    (∀ x ∈ scoredOf scenarioDoc (str "xyzzy nonsense"), x.score = 0) ∧
      bestMatches scenarioDoc (str "xyzzy nonsense") 3 = [] :=
  ⟨by decide, bestMatches_no_match_empty _ _ 3 (by decide)⟩

/-- C6: every expanded token has length at least 3 and the token list holds at
most 30 tokens. -/
theorem expandTokens_bounds (q : List Char) :
    (expandTokens q).all (fun t => decide (3 ≤ t.length)) = true ∧
      (expandTokens q).length ≤ 30 := by
  constructor
  · refine List.all_eq_true.mpr ?_
    intro t ht
    simp only [expandTokens] at ht
    exact (List.mem_filter.mp (List.mem_of_mem_take ht)).2
  · simp only [expandTokens]
    simp [List.length_take]

/-- Unfolding: a whitespace character inside a run emits nothing. -/
theorem collapseWsGo_cons_ws_true (d : Char) (rest : List Char) (hw : jsWs d = true) :
    collapseWsGo true (d :: rest) = collapseWsGo true rest := by
  simp [collapseWsGo, hw]

/-- Unfolding: a whitespace character outside a run emits one space. -/
theorem collapseWsGo_cons_ws_false (d : Char) (rest : List Char) (hw : jsWs d = true) :
    collapseWsGo false (d :: rest) = ' ' :: collapseWsGo true rest := by
  simp [collapseWsGo, hw]

/-- Unfolding: a non-whitespace character is copied and ends any run. -/
theorem collapseWsGo_cons_not_ws (b : Bool) (d : Char) (rest : List Char) (hw : jsWs d = false) :
    collapseWsGo b (d :: rest) = d :: collapseWsGo false rest := by
  simp [collapseWsGo, hw]

/-- A character of the class [a-z0-9] is not whitespace. -/
theorem lowerAlnum_not_ws (c : Char) (h : isLowerAlnum c = true) : jsWs c = false := by
  simp only [isLowerAlnum, Bool.or_eq_true, Bool.and_eq_true, decide_eq_true_eq] at h
  rw [Bool.eq_false_iff]
  intro hcon
  simp only [jsWs, Bool.or_eq_true, Bool.and_eq_true, decide_eq_true_eq] at hcon
  omega

/-- Characters kept by lowerChar: lowercase alphanumerics and the space. -/
theorem lowerChar_fixed (c : Char) (h : isLowerAlnum c = true ∨ c = ' ') :
    lowerChar c = c := by
  rcases h with h | h
  · simp only [isLowerAlnum, Bool.or_eq_true, Bool.and_eq_true, decide_eq_true_eq] at h
    unfold lowerChar
    rw [if_neg]
    omega
  · subst h; decide

/-- Characters kept by spaceChar: lowercase alphanumerics and the space. -/
theorem spaceChar_fixed (c : Char) (h : isLowerAlnum c = true ∨ c = ' ') :
    spaceChar c = c := by
  rcases h with h | h
  · simp [spaceChar, h]
  · subst h; decide

/-- Characters of the whitespace-collapsed list: each is the replacement
space or a non-whitespace character of the input. -/
theorem mem_collapseWsGo (c : Char) (l : List Char) : ∀ b, c ∈ collapseWsGo b l →
    c = ' ' ∨ (c ∈ l ∧ jsWs c = false) := by
  induction l with
  | nil => intro b h; cases b <;> simp [collapseWsGo] at h
  | cons d rest ih =>
    intro b h
    by_cases hw : jsWs d = true
    · cases b with
      | true =>
        rw [collapseWsGo_cons_ws_true d rest hw] at h
        rcases ih true h with h1 | h1
        · exact Or.inl h1
        · exact Or.inr ⟨List.mem_cons_of_mem _ h1.1, h1.2⟩
      | false =>
        rw [collapseWsGo_cons_ws_false d rest hw] at h
        rcases List.mem_cons.mp h with h1 | h1
        · exact Or.inl h1
        · rcases ih true h1 with h2 | h2
          · exact Or.inl h2
          · exact Or.inr ⟨List.mem_cons_of_mem _ h2.1, h2.2⟩
    · rw [Bool.not_eq_true] at hw
      rw [collapseWsGo_cons_not_ws b d rest hw] at h
      rcases List.mem_cons.mp h with h1 | h1
      · subst h1
        exact Or.inr ⟨List.mem_cons_self _ _, hw⟩
      · rcases ih false h1 with h2 | h2
        · exact Or.inl h2
        · exact Or.inr ⟨List.mem_cons_of_mem _ h2.1, h2.2⟩

/-- Inside a run, the next emitted character is not whitespace. -/
theorem collapseWsGo_head_not_ws (l : List Char) :
    ∀ c, (collapseWsGo true l).head? = some c → jsWs c = false := by
  induction l with
  | nil => intro c h; simp [collapseWsGo] at h
  | cons d rest ih =>
    intro c h
    by_cases hw : jsWs d = true
    · rw [collapseWsGo_cons_ws_true d rest hw] at h
      exact ih c h
    · rw [Bool.not_eq_true] at hw
      rw [collapseWsGo_cons_not_ws true d rest hw, List.head?_cons] at h
      cases h
      exact hw

/-- The whitespace-collapsed list never holds two adjacent whitespace
characters. -/
theorem collapseWsGo_chain (l : List Char) :
    ∀ b, List.Chain' (fun a c => jsWs a = true → jsWs c = false) (collapseWsGo b l) := by
  induction l with
  | nil => intro b; simp [collapseWsGo]
  | cons d rest ih =>
    intro b
    by_cases hw : jsWs d = true
    · cases b with
      | true =>
        rw [collapseWsGo_cons_ws_true d rest hw]
        exact ih true
      | false =>
        rw [collapseWsGo_cons_ws_false d rest hw]
        refine List.chain'_cons'.mpr ⟨?_, ih true⟩
        intro y hy _
        exact collapseWsGo_head_not_ws rest y hy
    · rw [Bool.not_eq_true] at hw
      rw [collapseWsGo_cons_not_ws b d rest hw]
      refine List.chain'_cons'.mpr ⟨?_, ih false⟩
      intro y hy hcon
      rw [hw] at hcon
      cases hcon

/-- When the head of the list is not whitespace the run state is
irrelevant. -/
theorem collapseWsGo_state (l : List Char)
    (h : ∀ c, l.head? = some c → jsWs c = false) :
    collapseWsGo true l = collapseWsGo false l := by
  cases l with
  | nil => rfl
  | cons d rest =>
    have hd := h d rfl
    rw [collapseWsGo_cons_not_ws true d rest hd, collapseWsGo_cons_not_ws false d rest hd]

/-- Collapsing is the identity on a list whose whitespace characters are all
single spaces with no two adjacent. -/
theorem collapseWsGo_id (l : List Char)
    (hws : ∀ c ∈ l, jsWs c = true → c = ' ')
    (hch : List.Chain' (fun a c => jsWs a = true → jsWs c = false) l) :
    collapseWsGo false l = l := by
  induction l with
  | nil => rfl
  | cons d rest ih =>
    have htail : List.Chain' (fun a c => jsWs a = true → jsWs c = false) rest := hch.tail
    have hwrest : ∀ c ∈ rest, jsWs c = true → c = ' ' :=
      fun c hc => hws c (List.mem_cons_of_mem _ hc)
    by_cases hw : jsWs d = true
    · have hstate : collapseWsGo true rest = collapseWsGo false rest := by
        refine collapseWsGo_state rest ?_
        intro c hc
        exact (List.chain'_cons'.mp hch).1 c hc hw
      have hd : d = ' ' := hws d (List.mem_cons_self _ _) hw
      rw [collapseWsGo_cons_ws_false d rest hw, hstate, ih hwrest htail, hd]
    · rw [Bool.not_eq_true] at hw
      rw [collapseWsGo_cons_not_ws false d rest hw, ih hwrest htail]

/-- The head of the trimmed list is not whitespace. -/
theorem jsTrim_head_not_ws (l : List Char) (c : Char)
    (h : (jsTrim l).head? = some c) : jsWs c = false := by
  unfold jsTrim at h
  obtain ⟨t, ht⟩ := List.rdropWhile_prefix jsWs (List.dropWhile jsWs l)
  have hD : (List.dropWhile jsWs l).head? = some c := by
    rw [← ht]
    cases hR : List.rdropWhile jsWs (List.dropWhile jsWs l) with
    | nil => rw [hR] at h; simp at h
    | cons d r =>
      rw [hR] at h
      simp only [List.head?_cons, Option.some.injEq] at h
      subst h
      rfl
  have hmatch := List.head?_dropWhile_not jsWs l
  rw [hD] at hmatch
  exact hmatch

/-- Dropping from the front is the identity when the head fails the
predicate. -/
theorem dropWhile_eq_self_of_head (p : Char → Bool) (l : List Char)
    (h : ∀ c, l.head? = some c → p c = false) : List.dropWhile p l = l := by
  cases l with
  | nil => rfl
  | cons d rest =>
    rw [List.dropWhile_cons_of_neg]
    simp [h d rfl]

/-- Trimming is idempotent. -/
theorem jsTrim_idem (l : List Char) : jsTrim (jsTrim l) = jsTrim l := by
  have h1 : List.dropWhile jsWs (jsTrim l) = jsTrim l :=
    dropWhile_eq_self_of_head jsWs (jsTrim l) (fun c hc => jsTrim_head_not_ws l c hc)
  show List.rdropWhile jsWs (List.dropWhile jsWs (jsTrim l)) = jsTrim l
  rw [h1]
  exact List.rdropWhile_idempotent jsWs _

/-- The trimmed list is a contiguous part of the original. -/
theorem jsTrim_infixOf (l : List Char) : jsTrim l <:+: l := by
  have h1 : jsTrim l <+: List.dropWhile jsWs l := List.rdropWhile_prefix jsWs _
  exact h1.isInfix.trans (List.dropWhile_suffix jsWs).isInfix

/-- Every character of the trimmed list is a character of the original. -/
theorem mem_jsTrim (l : List Char) (c : Char) (h : c ∈ jsTrim l) : c ∈ l :=
  (jsTrim_infixOf l).sublist.subset h

/-- Every character of a normalized string is a lowercase alphanumeric or a
space. -/
theorem normalize_chars (s : List Char) :
    ∀ c ∈ normalize s, isLowerAlnum c = true ∨ c = ' ' := by
  intro c hc
  have hc2 : c ∈ collapseWsGo false ((s.map lowerChar).map spaceChar) := mem_jsTrim _ c hc
  rcases mem_collapseWsGo c _ false hc2 with h | ⟨hmem, hnws⟩
  · exact Or.inr h
  · obtain ⟨d, _, hd⟩ := List.mem_map.mp hmem
    by_cases ha : (isLowerAlnum d || jsWs d) = true
    · rw [← hd] at hnws ⊢
      simp only [spaceChar, ha, if_true] at hnws ⊢
      rcases Bool.or_eq_true _ _ |>.mp ha with h1 | h1
      · exact Or.inl h1
      · rw [h1] at hnws; cases hnws
    · rw [← hd]
      simp only [spaceChar, ha, if_false]
      exact Or.inr rfl

/-- The normalized string has no two adjacent whitespace characters. -/
theorem normalize_chain (s : List Char) :
    List.Chain' (fun a c => jsWs a = true → jsWs c = false) (normalize s) :=
  List.Chain'.infix (collapseWsGo_chain _ false) (jsTrim_infixOf _)

/-- C7: normalize is idempotent. -/
theorem normalize_idempotent (s : List Char) :
    normalize (normalize s) = normalize s := by
  have hchars := normalize_chars s
  have h1 : (normalize s).map lowerChar = normalize s := by
    rw [List.map_congr_left (fun a ha => lowerChar_fixed a (hchars a ha)), List.map_id']
  have h2 : (normalize s).map spaceChar = normalize s := by
    rw [List.map_congr_left (fun a ha => spaceChar_fixed a (hchars a ha)), List.map_id']
  have hws : ∀ c ∈ normalize s, jsWs c = true → c = ' ' := by
    intro c hc hw
    rcases hchars c hc with h | h
    · rw [lowerAlnum_not_ws c h] at hw; cases hw
    · exact h
  have h3 : collapseWsGo false (normalize s) = normalize s :=
    collapseWsGo_id _ hws (normalize_chain s)
  have h4 : jsTrim (normalize s) = normalize s := jsTrim_idem _
  show jsTrim (collapseWsGo false (((normalize s).map lowerChar).map spaceChar)) = normalize s
  rw [h1, h2, h3, h4]

/-- Collapsing the whitespace of the space-substituted list is exactly the
replacement of maximal non-alphanumeric runs by single spaces. -/
theorem collapseWsGo_spaceChar (l : List Char) :
    ∀ b, collapseWsGo b (l.map spaceChar) = replaceRunsGo b l := by
  induction l with
  | nil => intro b; rfl
  | cons c rest ih =>
    intro b
    by_cases ha : isLowerAlnum c = true
    · have hw : jsWs c = false := lowerAlnum_not_ws c ha
      have hsp : spaceChar c = c := by simp [spaceChar, ha]
      rw [List.map_cons, hsp, collapseWsGo_cons_not_ws b c _ hw]
      simp [replaceRunsGo, ha, ih false]
    · have hwsp : jsWs (spaceChar c) = true := by
        by_cases hw : jsWs c = true
        · simp [spaceChar, hw]
        · rw [Bool.not_eq_true] at ha hw
          simp only [spaceChar, ha, hw, Bool.or_self, if_neg, Bool.false_eq_true,
            not_false_eq_true]
          decide
      rw [Bool.not_eq_true] at ha
      cases b with
      | true =>
        rw [List.map_cons, collapseWsGo_cons_ws_true _ _ hwsp]
        simp [replaceRunsGo, ha, ih true]
      | false =>
        rw [List.map_cons, collapseWsGo_cons_ws_false _ _ hwsp]
        simp [replaceRunsGo, ha, ih true]

/-- Counterexample to C10 as stated: a leading punctuation run is trimmed
away by normalize, not replaced by a space. -/
theorem normalize_run_replacement_counterexample :
    normalize (str "!aaa") = str "aaa" ∧ specReplaceRuns (str "!aaa") = str " aaa" ∧
      normalize (str "!aaa") ≠ specReplaceRuns (str "!aaa") := by
  refine ⟨by decide, by decide, by decide⟩

/-- C10 amended: normalize equals the maximal-run replacement followed by a
trim of the run-replacement spaces at the two ends, and the hyphen example of
the claim holds. -/
theorem normalize_replaces_internal_runs :
    (∀ s : List Char, normalize s = jsTrim (specReplaceRuns s)) ∧
      normalize (str "non-refundable") = str "non refundable" := by
  constructor
  · intro s
    show jsTrim (collapseWsGo false ((s.map lowerChar).map spaceChar)) = _
    rw [collapseWsGo_spaceChar]
    rfl
  · decide

/-- Counterexample to C8 as stated: a trimmed all-caps line of 71 characters
matches neither the ARTICLE nor the numeric heuristic, is classified as a
heading by the code, yet fails the claimed 9-to-70 length characterization. -/
theorem capsHeading_bounds_counterexample :
    jsTrim (List.replicate 71 'A') = List.replicate 71 'A' ∧
      articleSection (List.replicate 71 'A') = false ∧
      numericOutline (List.replicate 71 'A') = false ∧
      isHeading (List.replicate 71 'A') = true ∧
      specCapsHeading (List.replicate 71 'A') = false := by
  refine ⟨by decide, by decide, by decide, by decide, by decide⟩

/-- C8 amended: a trimmed line matching neither the ARTICLE-or-SECTION nor
the numeric-outline heuristic is classified as a heading exactly when its
first character is an uppercase letter or digit, its length lies between 9
and 71 inclusive, all its characters are uppercase letters, digits,
whitespace, hyphens, colons or ampersands, and it equals its own
uppercasing. -/
theorem isHeading_caps_characterization (s : List Char)
    (htrim : jsTrim s = s) (ha : articleSection s = false)
    (hn : numericOutline s = false) :
    isHeading s = amendedCapsHeading s := by
  cases s with
  | nil => decide
  | cons c rest =>
    have hcons : (c :: rest : List Char) ≠ [] := by simp
    simp only [isHeading, htrim, ha, hn, if_neg hcons, Bool.false_eq_true, if_false]
    rw [Bool.eq_iff_iff]
    simp only [capsRule, amendedCapsHeading, List.head?_cons, List.all_cons, List.length_cons,
      Bool.and_eq_true, decide_eq_true_eq]
    constructor
    · rintro ⟨⟨⟨h1, h2, h3⟩, h4⟩, h5⟩
      have hcb : capsBody c = true := by simp [capsBody, h1]
      exact ⟨⟨⟨h1, by omega, by omega⟩, hcb, h4⟩, h5⟩
    · rintro ⟨⟨⟨h1, h2, h3⟩, _, h4⟩, h5⟩
      exact ⟨⟨⟨h1, by omega, by omega⟩, h4⟩, h5⟩

/-- Witness for the amended C8 at a concrete all-caps heading line. -/
theorem isHeading_caps_characterization_witness :
    isHeading (str "CANCELLATION POLICY") = amendedCapsHeading (str "CANCELLATION POLICY") :=
  isHeading_caps_characterization (str "CANCELLATION POLICY")
    (by decide) (by decide) (by decide)

/-- Unfolding of joinLines over a first line. -/
theorem joinLines_cons (l : List Char) (ls : List (List Char)) :
    joinLines (l :: ls) = (l ++ ['\n']) ++ joinLines ls := by
  simp [joinLines]

/-- Trimming yields the empty list exactly when every character is
whitespace. -/
theorem jsTrim_eq_nil_iff (l : List Char) :
    jsTrim l = [] ↔ ∀ c ∈ l, jsWs c = true := by
  unfold jsTrim
  rw [List.rdropWhile_eq_nil_iff]
  constructor
  · intro h c hc
    rw [← List.takeWhile_append_dropWhile (p := jsWs) (l := l)] at hc
    rcases List.mem_append.mp hc with h1 | h1
    · exact List.mem_takeWhile_imp h1
    · exact h c h1
  · intro h c hc
    exact h c ((List.dropWhile_sublist jsWs).subset hc)

/-- The joined-body invariant of the parser loop: the content lines of the
remaining input, prefixed by the pending accumulator body when that body
survives trimming, form a sublist of the concatenated bodies of the chunks
the loop will produce. -/
theorem goParse_content_sublist (ls : List (List Char)) : ∀ cur : Chunk,
    List.Sublist
      ((if jsTrim cur.text = [] then [] else cur.text) ++
        joinLines (ls.filter contentLine))
      (((goParse cur ls).map Chunk.text).flatten) := by
  induction ls with
  | nil =>
    intro cur
    by_cases h : jsTrim cur.text = []
    · simp [goParse, h, joinLines]
    · simp [goParse, h, joinLines]
  | cons line rest ih =>
    intro cur
    by_cases hh : isHeading (jsTrim line) = true
    · have hcl : ¬ contentLine line = true := by simp [contentLine, bodyLine, hh]
      rw [List.filter_cons_of_neg hcl]
      have hgo : goParse cur (line :: rest) =
          (if jsTrim cur.text = [] then [] else [cur]) ++ goParse ⟨jsTrim line, []⟩ rest := by
        simp [goParse, hh]
      rw [hgo, List.map_append, List.flatten_append]
      have ihr : List.Sublist (joinLines (rest.filter contentLine))
          (((goParse ⟨jsTrim line, []⟩ rest).map Chunk.text).flatten) := by
        simpa [jsTrim] using ih ⟨jsTrim line, []⟩
      by_cases hcur : jsTrim cur.text = []
      · simp only [if_pos hcur]
        simpa using ihr
      · simp only [if_neg hcur]
        simpa using ihr.append_left cur.text
    · have hgo : goParse cur (line :: rest) =
          goParse ⟨cur.heading, cur.text ++ line ++ ['\n']⟩ rest := by
        simp [goParse, hh]
      rw [hgo]
      have ihc := ih ⟨cur.heading, cur.text ++ line ++ ['\n']⟩
      by_cases hcl : contentLine line = true
      · have hline : ∃ c ∈ line, jsWs c = false := by
          have := (Bool.and_eq_true _ _ |>.mp hcl).2
          obtain ⟨c, hc1, hc2⟩ := List.any_eq_true.mp this
          exact ⟨c, hc1, by simpa using hc2⟩
        have hne : jsTrim (cur.text ++ line ++ ['\n']) ≠ [] := by
          rw [Ne, jsTrim_eq_nil_iff]
          intro hall
          obtain ⟨c, hc1, hc2⟩ := hline
          have := hall c (by simp [hc1])
          rw [this] at hc2
          cases hc2
        rw [if_neg hne] at ihc
        rw [List.filter_cons_of_pos hcl, joinLines_cons]
        by_cases hcur : jsTrim cur.text = []
        · simp only [if_pos hcur, List.nil_append]
          refine List.Sublist.trans (List.sublist_append_right cur.text _) ?_
          simpa [List.append_assoc] using ihc
        · simp only [if_neg hcur]
          simpa [List.append_assoc] using ihc
      · have hlinews : ∀ c ∈ line, jsWs c = true := by
          intro c hc
          by_contra hcon
          refine hcl ?_
          refine Bool.and_eq_true _ _ |>.mpr ⟨by simp [bodyLine, hh], ?_⟩
          refine List.any_eq_true.mpr ⟨c, hc, by simpa using hcon⟩
        have heq : jsTrim (cur.text ++ line ++ ['\n']) = [] ↔ jsTrim cur.text = [] := by
          rw [jsTrim_eq_nil_iff, jsTrim_eq_nil_iff]
          constructor
          · intro h c hc
            exact h c (by simp [hc])
          · intro h c hc
            simp only [List.append_assoc, List.mem_append, List.mem_cons,
              List.not_mem_nil, or_false] at hc
            rcases hc with hc | hc | hc
            · exact h c hc
            · exact hlinews c hc
            · subst hc; decide
        rw [List.filter_cons_of_neg (by simp [hcl])]
        by_cases hcur : jsTrim cur.text = []
        · rw [if_pos (heq.mpr hcur)] at ihc
          simp only [if_pos hcur]
          exact ihc
        · rw [if_neg (fun h => hcur (heq.mp h))] at ihc
          simp only [if_neg hcur]
          refine List.Sublist.trans
            ((List.sublist_append_right (line ++ ['\n']) _).append_left cur.text) ?_
          simpa [List.append_assoc] using ihc

/-- Counterexample to C9 as stated: a whitespace-only non-heading line is
dropped when the section body it belongs to trims to nothing, so its
characters do not reach the concatenated bodies. -/
theorem parseAgreement_preservation_counterexample :
    parseAgreement (str "   \nSECTION 2\nx") = [⟨str "SECTION 2", str "x\n"⟩] ∧
      ¬ List.Sublist (joinLines ((splitLines (str "   \nSECTION 2\nx")).filter bodyLine))
          (bodiesConcat (str "   \nSECTION 2\nx")) := by
  refine ⟨by decide, by decide⟩

/-- C9 amended: concatenating the bodies of the parsed chunks preserves, in
original order and with the appended newlines, every non-heading line that
holds at least one non-whitespace character; whitespace-only non-heading
lines of a span whose whole accumulated body trims to nothing are dropped. -/
theorem parseAgreement_preserves_content_lines (d : List Char) :
    List.Sublist (joinLines ((splitLines d).filter contentLine)) (bodiesConcat d) := by
  have h : List.Sublist (joinLines ((splitLines d).filter contentLine))
      (((goParse ⟨str "INTRODUCTION", []⟩ (splitLines d)).map Chunk.text).flatten) := by
    simpa [jsTrim] using goParse_content_sublist (splitLines d) ⟨str "INTRODUCTION", []⟩
  rw [show goParse ⟨str "INTRODUCTION", []⟩ (splitLines d) = parseChunks d from rfl] at h
  unfold bodiesConcat parseAgreement
  by_cases hc : parseChunks d = []
  · rw [if_pos hc]
    rw [hc] at h
    simp only [List.map_nil, List.flatten_nil, List.sublist_nil] at h
    rw [h]
    exact List.nil_sublist _
  · rw [if_neg hc]
    exact h

/-- Decomposition of a whole-word match. -/
theorem matchAt_eq_true_iff (t hay : List Char) (p : Nat) :
    matchAt t hay p = true ↔
      (hay.drop p).take t.length = t ∧ boundaryAt hay p = true ∧
        boundaryAt hay (p + t.length) = true := by
  simp [matchAt, Bool.and_eq_true, and_assoc]

/-- A match of a non-empty token lies inside hay. -/
theorem matchAt_le (t hay : List Char) (p : Nat) (ht : t ≠ [])
    (hm : matchAt t hay p = true) : p + t.length ≤ hay.length := by
  obtain ⟨hs, -, -⟩ := (matchAt_eq_true_iff t hay p).mp hm
  have hlen := congrArg List.length hs
  simp only [List.length_take, List.length_drop] at hlen
  have ht' : 0 < t.length := List.length_pos.mpr ht
  omega

/-- Inside a match the haystack holds the token's characters. -/
theorem matchAt_char (t hay : List Char) (p k : Nat) (hm : matchAt t hay p = true)
    (hk : k < t.length) : hay.getD (p + k) ' ' = t.getD k ' ' := by
  obtain ⟨hs, -, -⟩ := (matchAt_eq_true_iff t hay p).mp hm
  conv_rhs => rw [← hs]
  simp only [List.getD_eq_getElem?_getD]
  rw [List.getElem?_take_of_lt hk, List.getElem?_drop]

/-- An in-bounds default read returns a member of the list. -/
theorem getD_mem_of_lt (l : List Char) (k : Nat) (hk : k < l.length) :
    l.getD k ' ' ∈ l := by
  rw [List.getD_eq_getElem?_getD, List.getElem?_eq_getElem hk]
  exact List.getElem_mem hk

/-- Matches of an all-word-character token cannot overlap: every inner
position sits between two word characters, so no word boundary holds there. -/
theorem matchAt_no_overlap (t hay : List Char) (p q : Nat)
    (hw : ∀ c ∈ t, isWordChar c = true) (hm : matchAt t hay p = true)
    (h1 : p < q) (h2 : q < p + t.length) : matchAt t hay q = false := by
  rw [Bool.eq_false_iff]
  intro hcon
  obtain ⟨-, hb, -⟩ := (matchAt_eq_true_iff t hay q).mp hcon
  have hq0 : ¬ q = 0 := by omega
  have hga : hay.getD (q - 1) ' ' = t.getD (q - 1 - p) ' ' := by
    have h := matchAt_char t hay p (q - 1 - p) hm (by omega)
    rw [show p + (q - 1 - p) = q - 1 from by omega] at h
    exact h
  have hgb : hay.getD q ' ' = t.getD (q - p) ' ' := by
    have h := matchAt_char t hay p (q - p) hm (by omega)
    rw [show p + (q - p) = q from by omega] at h
    exact h
  have hwa : isWordChar (hay.getD (q - 1) ' ') = true := by
    rw [hga]
    exact hw _ (getD_mem_of_lt t _ (by omega))
  have hwb : isWordChar (hay.getD q ' ') = true := by
    rw [hgb]
    exact hw _ (getD_mem_of_lt t _ (by omega))
  rw [boundaryAt, if_neg hq0, wordAt, wordAt, hwa, hwb] at hb
  simp at hb

/-- The regex scan with sufficient fuel counts exactly the matching
positions when the token is non-empty and all word characters. -/
theorem scanGo_spec (t hay : List Char) (ht : t ≠ [])
    (hw : ∀ c ∈ t, isWordChar c = true) :
    ∀ (fuel i : Nat), hay.length + 1 ≤ fuel + i →
      scanGo t hay fuel i =
        ((List.range' i (hay.length + 1 - i)).filter (fun p => matchAt t hay p)).length := by
  intro fuel
  induction fuel with
  | zero =>
    intro i hi
    rw [show hay.length + 1 - i = 0 from by omega]
    simp [scanGo]
  | succ fuel ih =>
    intro i hi
    by_cases hlt : hay.length < i
    · rw [show hay.length + 1 - i = 0 from by omega]
      simp [scanGo, hlt]
    · by_cases hm : matchAt t hay i = true
      · have hpos : 0 < t.length := List.length_pos.mpr ht
        have hmax : max t.length 1 = t.length := by omega
        have hle : i + t.length ≤ hay.length := matchAt_le t hay i ht hm
        rw [show scanGo t hay (fuel + 1) i = 1 + scanGo t hay fuel (i + max t.length 1) from by
          simp [scanGo, hlt, hm]]
        rw [hmax, ih (i + t.length) (by omega)]
        have hsplit : List.range' i (hay.length + 1 - i) =
            List.range' i t.length ++
              List.range' (i + t.length) (hay.length + 1 - (i + t.length)) := by
          rw [List.range'_append_1]
          congr 1
          omega
        rw [hsplit, List.filter_append, List.length_append]
        have hfirst : (List.range' i t.length).filter (fun p => matchAt t hay p) = [i] := by
          obtain ⟨k, hk2⟩ : ∃ k, t.length = k + 1 := ⟨t.length - 1, by omega⟩
          rw [hk2, List.range'_succ, List.filter_cons_of_pos (by simpa using hm)]
          rw [List.filter_eq_nil_iff.mpr]
          intro q hq
          obtain ⟨j, hj, hq2⟩ := List.mem_range'.mp hq
          have : matchAt t hay q = false :=
            matchAt_no_overlap t hay i q hw hm (by omega) (by omega)
          simp [this]
        rw [hfirst]
        simp
      · rw [show scanGo t hay (fuel + 1) i = scanGo t hay fuel (i + 1) from by
          simp [scanGo, hlt, hm]]
        rw [ih (i + 1) (by omega)]
        rw [show hay.length + 1 - i = (hay.length + 1 - (i + 1)) + 1 from by omega]
        rw [List.range'_succ, List.filter_cons_of_neg (by simpa using hm)]

/-- The global match count equals the number of whole-word occurrence
positions, for a non-empty all-word-character token. -/
theorem scanCount_spec (t hay : List Char) (ht : t ≠ [])
    (hw : ∀ c ∈ t, isWordChar c = true) :
    scanCount t hay = specWordOccs t hay := by
  unfold scanCount specWordOccs
  rw [scanGo_spec t hay ht hw (hay.length + 1) 0 (by omega)]
  rw [List.range_eq_range', Nat.sub_zero]



/-- A character of the class [a-z0-9] is a regex word character. -/
theorem lowerAlnum_word (c : Char) (h : isLowerAlnum c = true) : isWordChar c = true := by
  simp only [isLowerAlnum, Bool.or_eq_true, Bool.and_eq_true, decide_eq_true_eq] at h
  simp only [isWordChar, Bool.or_eq_true, Bool.and_eq_true, decide_eq_true_eq]
  omega

/-- Characters of the space-split pieces come from the input and are not
spaces. -/
theorem splitSp_chars (l : List Char) :
    ∀ w ∈ splitSp l, ∀ c ∈ w, c ∈ l ∧ ¬ c = ' ' := by
  induction l with
  | nil =>
    intro w hw c hc
    simp only [splitSp, List.mem_singleton] at hw
    subst hw
    simp at hc
  | cons d rest ih =>
    intro w hw c hc
    by_cases hd : d = ' '
    · rw [show splitSp (d :: rest) = [] :: splitSp rest from by simp [splitSp, hd]] at hw
      rcases List.mem_cons.mp hw with h1 | h1
      · subst h1; simp at hc
      · obtain ⟨h2, h3⟩ := ih w h1 c hc
        exact ⟨List.mem_cons_of_mem _ h2, h3⟩
    · cases hsp : splitSp rest with
      | nil =>
        rw [show splitSp (d :: rest) = [[d]] from by simp [splitSp, hd, hsp]] at hw
        simp only [List.mem_singleton] at hw
        subst hw
        simp only [List.mem_singleton] at hc
        subst hc
        exact ⟨List.mem_cons_self _ _, hd⟩
      | cons w0 ws =>
        rw [show splitSp (d :: rest) = (d :: w0) :: ws from by simp [splitSp, hd, hsp]] at hw
        rcases List.mem_cons.mp hw with h1 | h1
        · subst h1
          rcases List.mem_cons.mp hc with h2 | h2
          · subst h2; exact ⟨List.mem_cons_self _ _, hd⟩
          · obtain ⟨h3, h4⟩ := ih w0 (by rw [hsp]; exact List.mem_cons_self _ _) c h2
            exact ⟨List.mem_cons_of_mem _ h3, h4⟩
        · obtain ⟨h3, h4⟩ := ih w (by rw [hsp]; exact List.mem_cons_of_mem _ h1) c hc
          exact ⟨List.mem_cons_of_mem _ h3, h4⟩

/-- Set insertion preserves a property of all members. -/
theorem allP_addTok {P : List Char → Prop} {acc : List (List Char)} {y : List Char}
    (ha : ∀ x ∈ acc, P x) (hy : P y) : ∀ x ∈ addTok acc y, P x := by
  intro x hx
  unfold addTok at hx
  by_cases h : y ∈ acc
  · rw [if_pos h] at hx
    exact ha x hx
  · rw [if_neg h] at hx
    rcases List.mem_append.mp hx with h1 | h1
    · exact ha x h1
    · rw [List.mem_singleton.mp h1]
      exact hy

/-- Folding set insertions preserves a property of all members. -/
theorem allP_foldl_addTok {P : List Char → Prop} (l : List (List Char)) :
    ∀ acc, (∀ x ∈ acc, P x) → (∀ x ∈ l, P x) → ∀ x ∈ l.foldl addTok acc, P x := by
  induction l with
  | nil =>
    intro acc ha _
    simpa using ha
  | cons y rest ih =>
    intro acc ha hl
    simp only [List.foldl_cons]
    exact ih _ (allP_addTok ha (hl y (List.mem_cons_self _ _)))
      (fun x hx => hl x (List.mem_cons_of_mem _ hx))

/-- One synonym-table entry of the expansion loop preserves a property held
by the entry's key, its synonyms, and the accumulator. -/
theorem allP_expand_inner {P : List Char → Prop} (raw : List (List Char))
    (kv : List Char × List (List Char)) (hk : P kv.1) (harr : ∀ w ∈ kv.2, P w) :
    ∀ acc, (∀ x ∈ acc, P x) →
      ∀ x ∈ raw.foldl (fun acc2 w =>
        if w = kv.1 ∨ w ∈ kv.2 then kv.2.foldl addTok (addTok acc2 kv.1) else acc2) acc,
      P x := by
  induction raw with
  | nil =>
    intro acc ha
    simpa using ha
  | cons w rest ih =>
    intro acc ha
    simp only [List.foldl_cons]
    by_cases hc : w = kv.1 ∨ w ∈ kv.2
    · rw [if_pos hc]
      exact ih _ (allP_foldl_addTok kv.2 _ (allP_addTok ha hk) harr)
    · rw [if_neg hc]
      exact ih _ ha

/-- The whole expansion loop preserves a property held by the seeds and by
every key and synonym of the table. -/
theorem allP_expand_outer (P : List Char → Prop) (raw : List (List Char)) :
    ∀ (syns : List (List Char × List (List Char))),
      (∀ kv ∈ syns, P kv.1 ∧ ∀ w ∈ kv.2, P w) →
      ∀ acc, (∀ x ∈ acc, P x) →
      ∀ x ∈ syns.foldl (fun acc kv => raw.foldl (fun acc2 w =>
          if w = kv.1 ∨ w ∈ kv.2 then kv.2.foldl addTok (addTok acc2 kv.1) else acc2) acc) acc,
      P x := by
  intro syns
  induction syns with
  | nil =>
    intro _ acc ha
    simpa using ha
  | cons kv rest ih =>
    intro hs acc ha
    simp only [List.foldl_cons]
    refine ih (fun kv2 h2 => hs kv2 (List.mem_cons_of_mem _ h2)) _ ?_
    exact allP_expand_inner raw kv (hs kv (List.mem_cons_self _ _)).1
      (hs kv (List.mem_cons_self _ _)).2 acc ha

/-- Every expanded token is non-empty and made of word characters. -/
theorem expandTokens_tokens_wordlike (q : List Char) :
    ∀ t ∈ expandTokens q, t ≠ [] ∧ ∀ c ∈ t, isWordChar c = true := by
  intro t ht
  simp only [expandTokens] at ht
  have ht3 := (List.mem_filter.mp (List.mem_of_mem_take ht)).1
  have hraw : ∀ w ∈ (splitSp (normalize q)).filter (fun w => !w.isEmpty),
      w ≠ [] ∧ ∀ c ∈ w, isWordChar c = true := by
    intro w hw
    have h1 := List.mem_filter.mp hw
    constructor
    · intro hnil
      rw [hnil] at h1
      simp at h1
    · intro c hc
      obtain ⟨hcl, hcs⟩ := splitSp_chars (normalize q) w h1.1 c hc
      rcases normalize_chars q c hcl with h2 | h2
      · exact lowerAlnum_word c h2
      · exact absurd h2 hcs
  have hsyn : ∀ kv ∈ SYNONYMS,
      (kv.1 ≠ [] ∧ ∀ c ∈ kv.1, isWordChar c = true) ∧
        ∀ w ∈ kv.2, w ≠ [] ∧ ∀ c ∈ w, isWordChar c = true := by decide
  refine allP_expand_outer (fun x => x ≠ [] ∧ ∀ c ∈ x, isWordChar c = true)
    _ SYNONYMS hsyn _ ?_ t ht3
  exact allP_foldl_addTok _ [] (by simp) hraw

/-- C3: every expanded token's contribution to a chunk's score in bestMatches
equals its exact number of whole-word occurrence positions in the lowercased
heading-plus-body haystack, and the chunk's score is the sum of these
whole-word counts; in particular a token never scores inside a longer word. -/
theorem token_contribution_exact (text question : List Char) (c : Chunk)
    (_hc : c ∈ parseAgreement text) :
    (∀ t ∈ expandTokens question, scanCount t (hayOf c) = specWordOccs t (hayOf c)) ∧
      sectionScore (expandTokens question) c =
        ((expandTokens question).map (fun t => specWordOccs t (hayOf c))).sum := by
  have hmain : ∀ t ∈ expandTokens question,
      scanCount t (hayOf c) = specWordOccs t (hayOf c) := by
    intro t ht
    obtain ⟨hne, hw⟩ := expandTokens_tokens_wordlike question t ht
    exact scanCount_spec t (hayOf c) hne hw
  refine ⟨hmain, ?_⟩
  unfold sectionScore
  rw [List.map_congr_left (fun t ht => hmain t ht)]

/-- Witness for C3 at the cancellation section of the scenario document. -/
theorem token_contribution_exact_witness :
    (⟨str "SECTION 2: CANCELLATION POLICY",
        str "Client may cancel with 30 days notice. Deposits are non-refundable.\n"⟩ : Chunk) ∈
        parseAgreement scenarioDoc ∧
      scanCount (str "cancel") (hayOf ⟨str "SECTION 2: CANCELLATION POLICY",
          str "Client may cancel with 30 days notice. Deposits are non-refundable.\n"⟩) =
        specWordOccs (str "cancel") (hayOf ⟨str "SECTION 2: CANCELLATION POLICY",
          str "Client may cancel with 30 days notice. Deposits are non-refundable.\n"⟩) :=
  ⟨by decide,
   (token_contribution_exact scenarioDoc (str "cancel my service")
      ⟨str "SECTION 2: CANCELLATION POLICY",
        str "Client may cancel with 30 days notice. Deposits are non-refundable.\n"⟩
      (by decide)).1 (str "cancel") (by decide)⟩



/-- The comparator is transitive. -/
theorem scoreLe_trans (a b c : ScoredChunk) (h1 : scoreLe a b) (h2 : scoreLe b c) :
    scoreLe a c = true := by
  simp only [scoreLe, decide_eq_true_eq] at h1 h2 ⊢
  omega

/-- The comparator is total. -/
theorem scoreLe_total (a b : ScoredChunk) : scoreLe a b || scoreLe b a := by
  simp only [scoreLe, Bool.or_eq_true, decide_eq_true_eq]
  omega

/-- C4: bestMatches returns at most top results, ordered by descending
score; within each score value the returned chunks form a sublist of the
scored chunk list in document order, which is the stable-sort tie-breaking
guarantee. -/
theorem bestMatches_ordered_stable (text q : List Char) (top : Nat) :
    (bestMatches text q top).length ≤ top ∧
      (bestMatches text q top).Pairwise (fun a b => b.score ≤ a.score) ∧
      ∀ s : Nat, List.Sublist
        ((bestMatches text q top).filter (fun x => x.score == s))
        ((scoredOf text q).filter (fun x => x.score == s)) := by
  have hbm : bestMatches text q top =
      (((scoredOf text q).filter (fun x => decide (0 < x.score))).mergeSort scoreLe).take top :=
    rfl
  refine ⟨?_, ?_, ?_⟩
  · rw [hbm, List.length_take]
    exact Nat.min_le_left _ _
  · have hs : (((scoredOf text q).filter
        (fun x => decide (0 < x.score))).mergeSort scoreLe).Pairwise
          (fun a b => scoreLe a b) :=
      List.sorted_mergeSort scoreLe_trans scoreLe_total _
    rw [hbm]
    refine (hs.sublist (List.take_sublist _ _)).imp ?_
    intro a b hab
    simpa [scoreLe] using hab
  · intro s
    rw [hbm]
    have hA : (((scoredOf text q).filter (fun x => decide (0 < x.score))).filter
        (fun x => x.score == s)).filter (fun x => x.score == s) =
        ((scoredOf text q).filter (fun x => decide (0 < x.score))).filter
          (fun x => x.score == s) := by
      refine List.filter_eq_self.mpr ?_
      intro a ha
      exact (List.mem_filter.mp ha).2
    have hpair : (((scoredOf text q).filter (fun x => decide (0 < x.score))).filter
        (fun x => x.score == s)).Pairwise (fun a b => scoreLe a b) := by
      refine List.pairwise_of_forall_mem_list ?_
      intro a ha b hb
      have ha2 := (List.mem_filter.mp ha).2
      have hb2 := (List.mem_filter.mp hb).2
      simp only [beq_iff_eq] at ha2 hb2
      simp [scoreLe, ha2, hb2]
    have hsub : List.Sublist
        (((scoredOf text q).filter (fun x => decide (0 < x.score))).filter
          (fun x => x.score == s))
        (((scoredOf text q).filter (fun x => decide (0 < x.score))).mergeSort scoreLe) :=
      List.sublist_mergeSort scoreLe_trans scoreLe_total hpair (List.filter_sublist _)
    have hperm : List.Perm
        ((((scoredOf text q).filter (fun x => decide (0 < x.score))).mergeSort
            scoreLe).filter (fun x => x.score == s))
        (((scoredOf text q).filter (fun x => decide (0 < x.score))).filter
          (fun x => x.score == s)) :=
      (List.mergeSort_perm _ scoreLe).filter _
    have h6 : List.Sublist
        (((scoredOf text q).filter (fun x => decide (0 < x.score))).filter
          (fun x => x.score == s))
        ((((scoredOf text q).filter (fun x => decide (0 < x.score))).mergeSort
            scoreLe).filter (fun x => x.score == s)) := by
      rw [← hA]
      exact hsub.filter _
    have heq : (((scoredOf text q).filter (fun x => decide (0 < x.score))).filter
          (fun x => x.score == s)) =
        ((((scoredOf text q).filter (fun x => decide (0 < x.score))).mergeSort
            scoreLe).filter (fun x => x.score == s)) :=
      h6.eq_of_length hperm.length_eq.symm
    refine List.Sublist.trans ((List.take_sublist _ _).filter _) ?_
    rw [← heq]
    exact (List.filter_sublist _).filter _

end Freshwater
